import Mathlib

/-!
Verification development for the fast_glcm package (src/fast_glcm/calc.py).

The module computes, per pixel of a grayscale image, a local grey-level
co-occurrence matrix (GLCM) and derived texture statistics.  The embedding
below mirrors the numpy/OpenCV pipeline of fast_glcm:

* np.linspace(mi, ma + 1, levels + 1) and np.digitize(img, bins) - 1
  become binEdge and quantize (exact rational arithmetic);
* cv2.warpAffine(..., INTER_NEAREST, BORDER_REPLICATE) becomes gl2:
  nearest-neighbour sampling of gl1 at the inversely shifted position,
  with coordinates clamped into the image (clampIdx);
* the per level pair masks (gl1 == i) & (gl2 == j) become indicator;
* cv2.filter2D with an all-ones ks x ks uint8 kernel (default anchor at
  the kernel centre, default border BORDER_REFLECT_101) becomes
  windowCount, with reflect101 for the border indexing and the uint8
  saturation min 255 applied in fastGlcm (the glcm array dtype is uint8);
* the float cast of the returned tensor is the cast of the saturated
  natural count into the rationals;
* the statistic reducers mean, contrast, homogeneity, max and entropy
  are the corresponding weighted reductions of calc.py.
-/

namespace FastGLCM

/-- A grayscale image: height, width, and integer pixel values, addressed
as pix row col.  Pixel values of the uint8 input image are modelled as
integers. -/
structure Img where
  h : ℕ
  w : ℕ
  pix : ℕ → ℕ → ℤ

/-- The parameter record of fast_glcm: intensity range vmin..vmax, number
of grey levels, kernel size, pair distance (pixels) and pair angle
(degrees). -/
structure Params where
  vmin : ℤ
  vmax : ℤ
  levels : ℕ
  ks : ℕ
  distance : ℝ
  angle : ℝ

/-- The k-th entry of bins = np.linspace(mi, ma + 1, levels + 1), i.e.
vmin + k * (vmax + 1 - vmin) / levels, computed exactly in the rationals. -/
def binEdge (vmin vmax : ℤ) (levels : ℕ) (k : ℕ) : ℚ :=
  (vmin : ℚ) + (k : ℚ) * ((vmax : ℚ) + 1 - (vmin : ℚ)) / (levels : ℚ)

/-- np.digitize(v, bins) - 1 for the increasing edge sequence binEdge:
np.digitize returns the number of edges that are at most v, so the level
assigned to intensity v is that count minus one. -/
def quantize (vmin vmax : ℤ) (levels : ℕ) (v : ℤ) : ℤ :=
  ((((Finset.range (levels + 1)).filter
      (fun k => binEdge vmin vmax levels k ≤ (v : ℚ))).card : ℤ)) - 1

/-- The quantized level map gl1 of fast_glcm. -/
def gl1 (img : Img) (P : Params) (y x : ℕ) : ℤ :=
  quantize P.vmin P.vmax P.levels (img.pix y x)

/-- Clamping of a source coordinate into [0, len), the effect of
BORDER_REPLICATE in cv2.warpAffine. -/
def clampIdx (len : ℕ) (i : ℤ) : ℕ :=
  (max 0 (min ((len : ℤ) - 1) i)).toNat

/-- Rounding of a real source coordinate to the nearest integer pixel,
the effect of INTER_NEAREST. -/
noncomputable def rnd (r : ℝ) : ℤ :=
  ⌊r + 1 / 2⌋

/-- dx = distance * cos(deg2rad(angle)) of fast_glcm. -/
noncomputable def offsetDx (distance angle : ℝ) : ℝ :=
  distance * Real.cos (angle * (Real.pi / 180))

/-- dy = distance * sin(deg2rad(-angle)) of fast_glcm. -/
noncomputable def offsetDy (distance angle : ℝ) : ℝ :=
  distance * Real.sin (-angle * (Real.pi / 180))

/-- The shifted level map gl2 = cv2.warpAffine(gl1, [[1,0,-dx],[0,1,-dy]],
INTER_NEAREST, BORDER_REPLICATE): warpAffine inverts the forward matrix, so
the destination pixel (x, y) reads gl1 at the clamped rounding of
(x + dx, y + dy). -/
noncomputable def gl2 (img : Img) (P : Params) (y x : ℕ) : ℤ :=
  gl1 img P
    (clampIdx img.h (rnd ((y : ℝ) + offsetDy P.distance P.angle)))
    (clampIdx img.w (rnd ((x : ℝ) + offsetDx P.distance P.angle)))

/-- The binary mask (gl1 == i) & (gl2 == j) written into glcm[i, j] before
filtering (a uint8 0/1 plane, modelled as a natural number). -/
noncomputable def indicator (img : Img) (P : Params) (i j y x : ℕ) : ℕ :=
  if gl1 img P y x = (i : ℤ) ∧ gl2 img P y x = (j : ℤ) then 1 else 0

/-- Border index of cv2.borderInterpolate(p, len, BORDER_REFLECT_101), the
default border of cv2.filter2D: reflection without repeating the edge
pixel, periodic with period 2 * len - 2; a length-one axis always maps to
index 0. -/
def reflect101 (len : ℕ) (p : ℤ) : ℕ :=
  if len ≤ 1 then 0
  else if (p % ((2 * len - 2 : ℕ) : ℤ)).toNat ≤ len - 1
    then (p % ((2 * len - 2 : ℕ) : ℤ)).toNat
    else (2 * len - 2) - (p % ((2 * len - 2 : ℕ) : ℤ)).toNat

/-- The windowed count cv2.filter2D(glcm[i, j], -1, ones(ks, ks)) at pixel
(y, x): correlation with the all-ones kernel anchored at the kernel centre
(ks / 2, ks / 2), border positions resolved by reflect101.  This is the
exact sum before the uint8 saturation of the output array. -/
noncomputable def windowCount (img : Img) (P : Params) (i j y x : ℕ) : ℕ :=
  ∑ p ∈ Finset.range P.ks ×ˢ Finset.range P.ks,
    indicator img P i j
      (reflect101 img.h ((y : ℤ) + (p.1 : ℤ) - (P.ks / 2 : ℕ)))
      (reflect101 img.w ((x : ℤ) + (p.2 : ℤ) - (P.ks / 2 : ℕ)))

/-- Entry (i, j, y, x) of the tensor returned by fast_glcm: the windowed
count stored into the uint8 array (saturating at 255) and finally cast to
float by glcm.astype(np.float32); counts up to 255 are exact in float32,
so the cast is modelled as the cast into the rationals. -/
noncomputable def fastGlcm (img : Img) (P : Params) (i j y x : ℕ) : ℚ :=
  ((min 255 (windowCount img P i j y x) : ℕ) : ℚ)

/-- np.sum(glcm, axis=(0, 1)) at pixel (y, x): the sum of the tensor over
all level pairs. -/
noncomputable def tensorSum (img : Img) (P : Params) (y x : ℕ) : ℚ :=
  ∑ p ∈ Finset.range P.levels ×ˢ Finset.range P.levels,
    fastGlcm img P p.1 p.2 y x

/-- The mean statistic of calc.py: sum of glcm[i, j] * i / levels ** 2. -/
noncomputable def meanStat (img : Img) (P : Params) (y x : ℕ) : ℚ :=
  ∑ p ∈ Finset.range P.levels ×ˢ Finset.range P.levels,
    fastGlcm img P p.1 p.2 y x * (p.1 : ℚ) / ((P.levels : ℚ)) ^ 2

/-- The contrast statistic of calc.py: sum of glcm[i, j] * (i - j) ** 2. -/
noncomputable def contrastStat (img : Img) (P : Params) (y x : ℕ) : ℚ :=
  ∑ p ∈ Finset.range P.levels ×ˢ Finset.range P.levels,
    fastGlcm img P p.1 p.2 y x * ((p.1 : ℚ) - (p.2 : ℚ)) ^ 2

/-- The homogeneity statistic of calc.py: sum of
glcm[i, j] / (1 + (i - j) ** 2). -/
noncomputable def homogeneityStat (img : Img) (P : Params) (y x : ℕ) : ℚ :=
  ∑ p ∈ Finset.range P.levels ×ˢ Finset.range P.levels,
    fastGlcm img P p.1 p.2 y x / (1 + ((p.1 : ℚ) - (p.2 : ℚ)) ^ 2)

/-- The max statistic of calc.py: np.max(glcm, axis=(0, 1)) at pixel
(y, x), i.e. the maximum tensor entry over all level pairs (the entries
are saturated natural counts, so the finite supremum over the level-pair
grid is the maximum). -/
noncomputable def maxStat (img : Img) (P : Params) (y x : ℕ) : ℚ :=
  (((Finset.range P.levels ×ˢ Finset.range P.levels).sup
      (fun p => min 255 (windowCount img P p.1 p.2 y x)) : ℕ) : ℚ)

/-- pnorm of the entropy reducer: glcm / np.sum(glcm, axis=(0, 1))
+ 1 / ks ** 2, per level pair and pixel, in the reals. -/
noncomputable def pnorm (img : Img) (P : Params) (i j y x : ℕ) : ℝ :=
  ((fastGlcm img P i j y x : ℚ) : ℝ) / ((tensorSum img P y x : ℚ) : ℝ)
    + 1 / ((P.ks : ℝ)) ^ 2

/-- The entropy statistic of calc.py:
np.sum(-pnorm * np.log(pnorm), axis=(0, 1)). -/
noncomputable def entropyStat (img : Img) (P : Params) (y x : ℕ) : ℝ :=
  ∑ p ∈ Finset.range P.levels ×ˢ Finset.range P.levels,
    -(pnorm img P p.1 p.2 y x) * Real.log (pnorm img P p.1 p.2 y x)

/-!
Non-finite tracking model of the IEEE float arithmetic in the entropy
reducer, used to settle the division-by-zero behaviour: a value ⊥ of
WithBot ℝ stands for a non-finite float (NaN or an infinity), a coerced
real for a finite float value.  numpy produces NaN for 0.0 / 0.0 and an
infinity for x / 0.0 with x nonzero, so division by zero yields ⊥;
addition, negation and multiplication propagate non-finite operands the
way NaN propagates; np.log of a non-finite value or of a non-positive
value (NaN for negative input, -inf for zero) is non-finite.
-/

/-- Float division: division by zero produces a non-finite value. -/
noncomputable def wbDiv (a b : WithBot ℝ) : WithBot ℝ :=
  WithBot.recBotCoe ⊥
    (fun x => WithBot.recBotCoe ⊥
      (fun y => if y = 0 then (⊥ : WithBot ℝ) else ((x / y : ℝ) : WithBot ℝ)) b) a

/-- Float negation: propagates non-finite values. -/
noncomputable def wbNeg (a : WithBot ℝ) : WithBot ℝ :=
  WithBot.recBotCoe ⊥ (fun x => ((-x : ℝ) : WithBot ℝ)) a

/-- Float multiplication: propagates non-finite values. -/
noncomputable def wbMul (a b : WithBot ℝ) : WithBot ℝ :=
  WithBot.recBotCoe ⊥
    (fun x => WithBot.recBotCoe ⊥ (fun y => ((x * y : ℝ) : WithBot ℝ)) b) a

/-- Float natural logarithm: non-finite for non-finite or non-positive
input. -/
noncomputable def wbLog (a : WithBot ℝ) : WithBot ℝ :=
  WithBot.recBotCoe ⊥
    (fun x => if 0 < x then ((Real.log x : ℝ) : WithBot ℝ) else (⊥ : WithBot ℝ)) a

/-- pnorm of the entropy reducer in the float model: the tensor entry
divided by the per-pixel tensor sum, plus 1 / ks ** 2.  The addition of
WithBot ℝ is exactly NaN-propagating float addition on these values. -/
noncomputable def pnormFloat (img : Img) (P : Params) (i j y x : ℕ) : WithBot ℝ :=
  wbDiv (((fastGlcm img P i j y x : ℚ) : ℝ) : WithBot ℝ)
      (((tensorSum img P y x : ℚ) : ℝ) : WithBot ℝ)
    + ((1 / ((P.ks : ℝ)) ^ 2 : ℝ) : WithBot ℝ)

/-- The entropy statistic in the float model:
np.sum(-pnorm * np.log(pnorm), axis=(0, 1)), where a resulting ⊥ records
that the float computation produced a non-finite value (NaN). -/
noncomputable def entropyFloat (img : Img) (P : Params) (y x : ℕ) : WithBot ℝ :=
  ∑ p ∈ Finset.range P.levels ×ˢ Finset.range P.levels,
    wbMul (wbNeg (pnormFloat img P p.1 p.2 y x))
      (wbLog (pnormFloat img P p.1 p.2 y x))

/-!
Concrete inputs used by the counterexamples and witnesses.
-/

/-- A 4 x 4 image with every pixel equal to 100. -/
def img4 : Img := ⟨4, 4, fun _ _ => 100⟩

/-- A 1 x 1 image with pixel value 100. -/
def imgC : Img := ⟨1, 1, fun _ _ => 100⟩

/-- A 1 x 1 image with pixel value 50, below vmin = 100 of PLow. -/
def imgLow : Img := ⟨1, 1, fun _ _ => 50⟩

/-- The parameters of the concrete scenario of the specification:
vmin = 0, vmax = 255, levels = 8, kernel_size = 3, distance = 1,
angle = 0. -/
def P4 : Params := ⟨0, 255, 8, 3, 1, 0⟩

/-- Parameters with the invalid distance = 0 (all other fields as in P4). -/
def P0 : Params := ⟨0, 255, 8, 3, 0, 0⟩

/-- Parameters with vmin = 100, vmax = 200, levels = 8, kernel_size = 1,
distance = 1, angle = 0: valid in the sense of the specification, but the
pixel value 50 of imgLow lies below vmin. -/
def PLow1 : Params := ⟨100, 200, 8, 1, 1, 0⟩

/-- Parameters with vmin = 100, vmax = 200 and the default levels = 8,
kernel_size = 5: valid, but the pixel value 50 of imgLow lies below
vmin. -/
def PLow : Params := ⟨100, 200, 8, 5, 1, 0⟩

/-!
Helper lemmas about the quantization.
-/

lemma binEdge_zero (vmin vmax : ℤ) (levels : ℕ) :
    binEdge vmin vmax levels 0 = (vmin : ℚ) := by
  simp [binEdge]

lemma binEdge_at_levels (vmin vmax : ℤ) {levels : ℕ} (hl : 1 ≤ levels) :
    binEdge vmin vmax levels levels = (vmax : ℚ) + 1 := by
  have h0 : ((levels : ℚ)) ≠ 0 := by
    exact_mod_cast (by omega : levels ≠ 0)
  rw [binEdge]
  field_simp

lemma quantize_nonneg {vmin vmax : ℤ} {levels : ℕ} {v : ℤ} (h : vmin ≤ v) :
    0 ≤ quantize vmin vmax levels v := by
  have h0 : (0 : ℕ) ∈ (Finset.range (levels + 1)).filter
      (fun k => binEdge vmin vmax levels k ≤ (v : ℚ)) := by
    refine Finset.mem_filter.mpr ⟨Finset.mem_range.mpr (Nat.succ_pos _), ?_⟩
    rw [binEdge_zero]
    exact_mod_cast h
  have hc := Finset.card_pos.mpr ⟨0, h0⟩
  unfold quantize
  omega

lemma quantize_lt_levels {vmin vmax : ℤ} {levels : ℕ} {v : ℤ}
    (hl : 1 ≤ levels) (hv : v ≤ vmax) :
    quantize vmin vmax levels v < levels := by
  have hsub : (Finset.range (levels + 1)).filter
      (fun k => binEdge vmin vmax levels k ≤ (v : ℚ)) ⊆
      (Finset.range (levels + 1)).erase levels := by
    intro k hk
    rcases Finset.mem_filter.mp hk with ⟨hkr, hkb⟩
    refine Finset.mem_erase.mpr ⟨?_, hkr⟩
    rintro rfl
    rw [binEdge_at_levels vmin vmax hl] at hkb
    have hvq : (v : ℚ) ≤ (vmax : ℚ) := by exact_mod_cast hv
    linarith
  have hcard := Finset.card_le_card hsub
  rw [Finset.card_erase_of_mem (Finset.mem_range.mpr (Nat.lt_succ_self _)),
    Finset.card_range] at hcard
  unfold quantize
  omega

lemma quantize_mono (vmin vmax : ℤ) (levels : ℕ) {a b : ℤ} (hab : a ≤ b) :
    quantize vmin vmax levels a ≤ quantize vmin vmax levels b := by
  have habq : (a : ℚ) ≤ (b : ℚ) := by exact_mod_cast hab
  have hsub : (Finset.range (levels + 1)).filter
      (fun k => binEdge vmin vmax levels k ≤ (a : ℚ)) ⊆
      (Finset.range (levels + 1)).filter
      (fun k => binEdge vmin vmax levels k ≤ (b : ℚ)) := by
    intro k hk
    rcases Finset.mem_filter.mp hk with ⟨hkr, hkb⟩
    exact Finset.mem_filter.mpr ⟨hkr, le_trans hkb habq⟩
  have hcard := Finset.card_le_card hsub
  unfold quantize
  omega

/-!
Helper lemmas about border handling.
-/

lemma clampIdx_lt {len : ℕ} (h : 0 < len) (i : ℤ) : clampIdx len i < len := by
  unfold clampIdx
  omega

lemma reflect101_lt {len : ℕ} (h : 0 < len) (p : ℤ) : reflect101 len p < len := by
  unfold reflect101
  by_cases h1 : len ≤ 1
  · simp [h1]
    omega
  · have h2 : (0 : ℤ) < ((2 * len - 2 : ℕ) : ℤ) := by omega
    have hm1 : 0 ≤ p % ((2 * len - 2 : ℕ) : ℤ) := Int.emod_nonneg _ (ne_of_gt h2)
    have hm2 : p % ((2 * len - 2 : ℕ) : ℤ) < ((2 * len - 2 : ℕ) : ℤ) :=
      Int.emod_lt_of_pos _ h2
    simp only [h1, if_false]
    split <;> omega

/-!
Helper lemmas about the indicator masks and windowed counts.
-/

lemma indicator_le_one (img : Img) (P : Params) (i j y x : ℕ) :
    indicator img P i j y x ≤ 1 := by
  unfold indicator
  split <;> simp

lemma indicator_eq_zero_of_gl1_neg {img : Img} {P : Params} {y x : ℕ}
    (h : gl1 img P y x < 0) (i j : ℕ) : indicator img P i j y x = 0 := by
  unfold indicator
  rw [if_neg]
  rintro ⟨h1, -⟩
  omega

lemma windowCount_le_sq (img : Img) (P : Params) (i j y x : ℕ) :
    windowCount img P i j y x ≤ P.ks ^ 2 := by
  unfold windowCount
  calc
    ∑ p ∈ Finset.range P.ks ×ˢ Finset.range P.ks,
        indicator img P i j
          (reflect101 img.h ((y : ℤ) + (p.1 : ℤ) - (P.ks / 2 : ℕ)))
          (reflect101 img.w ((x : ℤ) + (p.2 : ℤ) - (P.ks / 2 : ℕ)))
      ≤ ∑ _p ∈ Finset.range P.ks ×ˢ Finset.range P.ks, 1 :=
        Finset.sum_le_sum (fun p _ => indicator_le_one _ _ _ _ _ _)
    _ = P.ks ^ 2 := by
        rw [Finset.sum_const, Finset.card_product, Finset.card_range, smul_eq_mul,
          mul_one, pow_two]

/-!
Evaluation of the pipeline on constant images: every pixel of the image
has value c and c quantizes to level q, so gl1 and gl2 are constantly q
and every window is filled with the single pair (q, q).
-/

lemma gl1_of_const {img : Img} {P : Params} {c q : ℤ}
    (hpix : ∀ y x, img.pix y x = c)
    (hq : quantize P.vmin P.vmax P.levels c = q) (y x : ℕ) :
    gl1 img P y x = q := by
  unfold gl1
  rw [hpix]
  exact hq

lemma gl2_of_const {img : Img} {P : Params} {c q : ℤ}
    (hpix : ∀ y x, img.pix y x = c)
    (hq : quantize P.vmin P.vmax P.levels c = q) (y x : ℕ) :
    gl2 img P y x = q := by
  unfold gl2
  exact gl1_of_const hpix hq _ _

lemma indicator_of_const {img : Img} {P : Params} {c : ℤ} {q : ℕ}
    (hpix : ∀ y x, img.pix y x = c)
    (hq : quantize P.vmin P.vmax P.levels c = (q : ℤ)) (i j y x : ℕ) :
    indicator img P i j y x = if i = q ∧ j = q then 1 else 0 := by
  unfold indicator
  rw [gl1_of_const hpix hq, gl2_of_const hpix hq]
  by_cases hij : i = q ∧ j = q
  · rcases hij with ⟨rfl, rfl⟩
    simp
  · rw [if_neg, if_neg hij]
    rintro ⟨h1, h2⟩
    exact hij ⟨by omega, by omega⟩

lemma windowCount_of_const {img : Img} {P : Params} {c : ℤ} {q : ℕ}
    (hpix : ∀ y x, img.pix y x = c)
    (hq : quantize P.vmin P.vmax P.levels c = (q : ℤ)) (i j y x : ℕ) :
    windowCount img P i j y x = if i = q ∧ j = q then P.ks ^ 2 else 0 := by
  unfold windowCount
  rw [Finset.sum_congr rfl (fun p _ => indicator_of_const hpix hq i j _ _)]
  by_cases hij : i = q ∧ j = q
  · rw [if_pos hij]
    simp only [if_pos hij]
    rw [Finset.sum_const, Finset.card_product, Finset.card_range, smul_eq_mul,
      mul_one, pow_two]
  · rw [if_neg hij]
    simp only [if_neg hij]
    exact Finset.sum_const_zero

lemma fastGlcm_of_const {img : Img} {P : Params} {c : ℤ} {q : ℕ}
    (hpix : ∀ y x, img.pix y x = c)
    (hq : quantize P.vmin P.vmax P.levels c = (q : ℤ)) (i j y x : ℕ) :
    fastGlcm img P i j y x =
      if i = q ∧ j = q then ((min 255 (P.ks ^ 2) : ℕ) : ℚ) else 0 := by
  unfold fastGlcm
  rw [windowCount_of_const hpix hq]
  split <;> simp

/-- Summing a function supported on the single pair (a, b) over the
level-pair grid. -/
lemma sum_ite_pair {M : Type} [AddCommMonoid M] {L a b : ℕ} (ha : a < L) (hb : b < L)
    (g : ℕ × ℕ → M) :
    ∑ p ∈ Finset.range L ×ˢ Finset.range L,
      (if p.1 = a ∧ p.2 = b then g p else 0) = g (a, b) := by
  rw [Finset.sum_eq_single (a, b)]
  · simp
  · rintro p _ hne
    rw [if_neg]
    rintro ⟨h1, h2⟩
    exact hne (Prod.ext h1 h2)
  · intro hmem
    exact absurd (Finset.mem_product.mpr
      ⟨Finset.mem_range.mpr ha, Finset.mem_range.mpr hb⟩) hmem

/-- At a position whose levels gl1 and gl2 both lie in [0, levels), the
indicator masks sum to one over all level pairs. -/
lemma sum_indicator_eq_one {img : Img} {P : Params} {y x : ℕ}
    (h1 : 0 ≤ gl1 img P y x) (h2 : gl1 img P y x < (P.levels : ℤ))
    (h3 : 0 ≤ gl2 img P y x) (h4 : gl2 img P y x < (P.levels : ℤ)) :
    ∑ p ∈ Finset.range P.levels ×ˢ Finset.range P.levels,
      indicator img P p.1 p.2 y x = 1 := by
  have hcongr : ∀ p ∈ Finset.range P.levels ×ˢ Finset.range P.levels,
      indicator img P p.1 p.2 y x =
        if p.1 = (gl1 img P y x).toNat ∧ p.2 = (gl2 img P y x).toNat
          then (1 : ℕ) else 0 := by
    intro p _
    unfold indicator
    refine if_congr ⟨fun h => ⟨by omega, by omega⟩, fun h => ⟨by omega, by omega⟩⟩ rfl rfl
  rw [Finset.sum_congr rfl hcongr,
    sum_ite_pair (by omega) (by omega) (fun _ => (1 : ℕ))]

/-!
Concrete quantization values, evaluated on the exact rational bin edges.
-/

lemma quantize_val_100 : quantize 0 255 8 100 = 3 := by
  norm_num [quantize, binEdge, Finset.range_succ, Finset.filter_insert,
    Finset.filter_singleton]

lemma quantize_val_50 : quantize 100 200 8 50 = -1 := by
  norm_num [quantize, binEdge, Finset.range_succ, Finset.filter_insert,
    Finset.filter_singleton]

lemma quantize_val_250 : quantize 100 200 8 250 = 8 := by
  norm_num [quantize, binEdge, Finset.range_succ, Finset.filter_insert,
    Finset.filter_singleton]

/-!
Images whose pixels all quantize below level 0 produce an all-zero tensor:
no level pair (i, j) with natural i ever matches a negative gl1 level.
-/

lemma fastGlcm_eq_zero_of_gl1_neg {img : Img} {P : Params}
    (hneg : ∀ y x, gl1 img P y x < 0) (i j y x : ℕ) :
    fastGlcm img P i j y x = 0 := by
  unfold fastGlcm windowCount
  rw [Finset.sum_congr rfl (fun q _ => indicator_eq_zero_of_gl1_neg (hneg _ _) i j)]
  simp

lemma tensorSum_eq_zero_of_gl1_neg {img : Img} {P : Params}
    (hneg : ∀ y x, gl1 img P y x < 0) (y x : ℕ) :
    tensorSum img P y x = 0 := by
  unfold tensorSum
  rw [Finset.sum_congr rfl (fun p _ => fastGlcm_eq_zero_of_gl1_neg hneg p.1 p.2 y x)]
  simp

lemma gl1_imgLow_neg (P : Params) (h1 : P.vmin = 100) (h2 : P.vmax = 200)
    (h3 : P.levels = 8) (y x : ℕ) : gl1 imgLow P y x < 0 := by
  show quantize P.vmin P.vmax P.levels 50 < 0
  rw [h1, h2, h3, quantize_val_50]
  norm_num

/-!
Bounds of the level maps on images whose pixels lie inside [vmin, vmax].
-/

lemma gl1_bounds {img : Img} {P : Params} {y x : ℕ} (hl : 1 ≤ P.levels)
    (hlo : P.vmin ≤ img.pix y x) (hhi : img.pix y x ≤ P.vmax) :
    0 ≤ gl1 img P y x ∧ gl1 img P y x < (P.levels : ℤ) := by
  unfold gl1
  exact ⟨quantize_nonneg hlo, by exact_mod_cast quantize_lt_levels hl hhi⟩

lemma gl2_bounds {img : Img} {P : Params} (y x : ℕ) (hl : 1 ≤ P.levels)
    (hh : 0 < img.h) (hw : 0 < img.w)
    (hpix : ∀ y, y < img.h → ∀ x, x < img.w →
      P.vmin ≤ img.pix y x ∧ img.pix y x ≤ P.vmax) :
    0 ≤ gl2 img P y x ∧ gl2 img P y x < (P.levels : ℤ) := by
  unfold gl2
  have h1 := clampIdx_lt hh (rnd ((y : ℝ) + offsetDy P.distance P.angle))
  have h2 := clampIdx_lt hw (rnd ((x : ℝ) + offsetDx P.distance P.angle))
  have hb := hpix _ h1 _ h2
  exact gl1_bounds hl hb.1 hb.2

/-!
Claim theorems.
-/

/-- C1, counterexample: with the valid parameters vmin = 100 < vmax = 200,
levels = 8, kernel_size = 1, distance = 1 and the 1 x 1 image with pixel
value 50 (below vmin), the tensor sums to 0 at pixel (0, 0), not to
kernel_size squared = 1: np.digitize assigns level -1 below vmin, so no
level pair matches and the invariant of the claim fails. -/
theorem c1_counterexample :
    tensorSum imgLow PLow1 0 0 = 0 ∧
      tensorSum imgLow PLow1 0 0 ≠ ((PLow1.ks : ℚ)) ^ 2 := by
  have h0 : tensorSum imgLow PLow1 0 0 = 0 :=
    tensorSum_eq_zero_of_gl1_neg (gl1_imgLow_neg PLow1 rfl rfl rfl) 0 0
  refine ⟨h0, ?_⟩
  rw [h0]
  show (0 : ℚ) ≠ ((1 : ℕ) : ℚ) ^ 2
  norm_num

/-- C1, amended: if additionally every pixel of the image lies inside
[vmin, vmax] (the quantization does not clamp, so out-of-range pixels get
a level outside [0, levels)) and kernel_size squared is at most 255 (the
uint8 tensor saturates at 255), then the tensor returned by fast_glcm
sums, over all level pairs, to kernel_size squared at every pixel,
border pixels included. -/
theorem c1_window_sum (img : Img) (P : Params)
    (hl : 1 ≤ P.levels) (hks : 1 ≤ P.ks) (hsat : P.ks ^ 2 ≤ 255)
    (hv : P.vmin < P.vmax) (hd : 0 < P.distance)
    (hpix : ∀ y, y < img.h → ∀ x, x < img.w →
      P.vmin ≤ img.pix y x ∧ img.pix y x ≤ P.vmax)
    {y x : ℕ} (hy : y < img.h) (hx : x < img.w) :
    tensorSum img P y x = ((P.ks : ℚ)) ^ 2 := by
  have hh : 0 < img.h := by omega
  have hw : 0 < img.w := by omega
  have hmin : ∀ p : ℕ × ℕ,
      min 255 (windowCount img P p.1 p.2 y x) = windowCount img P p.1 p.2 y x :=
    fun p => min_eq_right (le_trans (windowCount_le_sq img P p.1 p.2 y x) hsat)
  unfold tensorSum fastGlcm
  rw [Finset.sum_congr rfl (fun p _ => by rw [hmin p])]
  rw [← Nat.cast_sum]
  have hswap : ∑ p ∈ Finset.range P.levels ×ˢ Finset.range P.levels,
      windowCount img P p.1 p.2 y x = P.ks * P.ks := by
    unfold windowCount
    rw [Finset.sum_comm]
    have hone : ∀ q ∈ Finset.range P.ks ×ˢ Finset.range P.ks,
        ∑ p ∈ Finset.range P.levels ×ˢ Finset.range P.levels,
          indicator img P p.1 p.2
            (reflect101 img.h ((y : ℤ) + (q.1 : ℤ) - (P.ks / 2 : ℕ)))
            (reflect101 img.w ((x : ℤ) + (q.2 : ℤ) - (P.ks / 2 : ℕ))) = 1 := by
      intro q _
      have hys := reflect101_lt hh ((y : ℤ) + (q.1 : ℤ) - (P.ks / 2 : ℕ))
      have hxs := reflect101_lt hw ((x : ℤ) + (q.2 : ℤ) - (P.ks / 2 : ℕ))
      have hb := hpix _ hys _ hxs
      have g1 := gl1_bounds hl hb.1 hb.2
      have g2 := gl2_bounds (reflect101 img.h ((y : ℤ) + (q.1 : ℤ) - (P.ks / 2 : ℕ)))
        (reflect101 img.w ((x : ℤ) + (q.2 : ℤ) - (P.ks / 2 : ℕ))) hl hh hw hpix
      exact sum_indicator_eq_one g1.1 g1.2 g2.1 g2.2
    rw [Finset.sum_congr rfl hone, Finset.sum_const, Finset.card_product,
      Finset.card_range, smul_eq_mul, mul_one]
  rw [hswap]
  push_cast
  ring

/-- C1, witness: the amended theorem applied to the 4 x 4 constant image
with value 100 and the parameters vmin = 0, vmax = 255, levels = 8,
kernel_size = 3, distance = 1, angle = 0 at pixel (0, 0). -/
theorem c1_window_sum_witness : tensorSum img4 P4 0 0 = ((P4.ks : ℚ)) ^ 2 :=
  c1_window_sum img4 P4 (by norm_num [P4]) (by norm_num [P4]) (by norm_num [P4])
    (by norm_num [P4]) (by norm_num [P4])
    (fun y _ x _ => by constructor <;> norm_num [img4, P4])
    (by norm_num [img4]) (by norm_num [img4])

/-- C2, counterexample: with vmin = 100, vmax = 200, levels = 8, the pixel
value 50 below vmin is quantized to level -1, not clamped to level 0: the
level map has an entry outside [0, levels - 1]. -/
theorem c2_counterexample :
    gl1 imgLow PLow1 0 0 = -1 ∧ gl1 imgLow PLow1 0 0 ≠ 0 ∧
      gl1 imgLow PLow1 0 0 < 0 := by
  have h : gl1 imgLow PLow1 0 0 = -1 := by
    show quantize PLow1.vmin PLow1.vmax PLow1.levels 50 = -1
    exact quantize_val_50
  refine ⟨h, ?_, ?_⟩ <;> rw [h] <;> norm_num

/-- C2, amended: quantization in fast_glcm does not clamp: a pixel value
below vmin is assigned level -1 and a pixel value above vmax is assigned
level levels, both outside [0, levels - 1]; no error is raised (the
quantization is total). -/
theorem c2_no_clamping (vmin vmax : ℤ) (levels : ℕ) (v : ℤ)
    (hv : vmin < vmax) (hl : 1 ≤ levels) :
    (v < vmin → quantize vmin vmax levels v = -1) ∧
      (vmax < v → quantize vmin vmax levels v = (levels : ℤ)) := by
  have hstep : (0 : ℚ) ≤ ((vmax : ℚ) + 1 - (vmin : ℚ)) / (levels : ℚ) := by
    apply div_nonneg
    · have : (vmin : ℚ) < (vmax : ℚ) := by exact_mod_cast hv
      linarith
    · exact_mod_cast Nat.zero_le levels
  constructor
  · intro hlt
    have hempty : (Finset.range (levels + 1)).filter
        (fun k => binEdge vmin vmax levels k ≤ (v : ℚ)) = ∅ := by
      refine Finset.filter_false_of_mem ?_
      intro k _
      rw [binEdge, not_le]
      have h1 : (v : ℚ) < (vmin : ℚ) := by exact_mod_cast hlt
      have h2 : (0 : ℚ) ≤ (k : ℚ) * (((vmax : ℚ) + 1 - (vmin : ℚ)) / (levels : ℚ)) :=
        mul_nonneg (by exact_mod_cast Nat.zero_le k) hstep
      rw [mul_div_assoc]
      linarith
    unfold quantize
    rw [hempty]
    simp
  · intro hgt
    have hfull : (Finset.range (levels + 1)).filter
        (fun k => binEdge vmin vmax levels k ≤ (v : ℚ)) =
        Finset.range (levels + 1) := by
      refine Finset.filter_true_of_mem ?_
      intro k hk
      have hkle : (k : ℚ) ≤ (levels : ℚ) := by
        exact_mod_cast Nat.lt_succ_iff.mp (Finset.mem_range.mp hk)
      have hmono : binEdge vmin vmax levels k ≤ binEdge vmin vmax levels levels := by
        unfold binEdge
        rw [mul_div_assoc, mul_div_assoc]
        have := mul_le_mul_of_nonneg_right hkle hstep
        linarith
      have hlast : binEdge vmin vmax levels levels = (vmax : ℚ) + 1 :=
        binEdge_at_levels vmin vmax hl
      have hv1 : (vmax : ℚ) + 1 ≤ (v : ℚ) := by
        have : vmax + 1 ≤ v := hgt
        exact_mod_cast this
      calc binEdge vmin vmax levels k ≤ binEdge vmin vmax levels levels := hmono
        _ = (vmax : ℚ) + 1 := hlast
        _ ≤ (v : ℚ) := hv1
    unfold quantize
    rw [hfull, Finset.card_range]
    push_cast
    ring

/-- C2, witness: the amended theorem applied with vmin = 100, vmax = 200,
levels = 8 to the below-range value 50 and the above-range value 250. -/
theorem c2_no_clamping_witness :
    quantize 100 200 8 50 = -1 ∧ quantize 100 200 8 250 = 8 :=
  ⟨(c2_no_clamping 100 200 8 50 (by norm_num) (by norm_num)).1 (by norm_num),
    (c2_no_clamping 100 200 8 250 (by norm_num) (by norm_num)).2 (by norm_num)⟩

/-- C7: quantization is monotone: for fixed vmin < vmax and levels, an
intensity a below an intensity b receives a level at most that of b (the
count of bin edges at most the value grows with the value). -/
theorem c7_quantize_monotone (vmin vmax : ℤ) (levels : ℕ)
    (hv : vmin < vmax) (hl : 1 ≤ levels) {a b : ℤ} (hab : a < b) :
    quantize vmin vmax levels a ≤ quantize vmin vmax levels b :=
  quantize_mono vmin vmax levels (le_of_lt hab)

/-- C7, witness: monotonicity applied at the concrete pair 50 < 100 with
vmin = 0, vmax = 255, levels = 8. -/
theorem c7_quantize_monotone_witness :
    quantize 0 255 8 50 ≤ quantize 0 255 8 100 :=
  c7_quantize_monotone 0 255 8 (by norm_num) (by norm_num) (by norm_num)

/-!
Rounding and clamping of in-image coordinates, used to evaluate the shift
at distance zero.
-/

lemma rnd_natCast (n : ℕ) : rnd ((n : ℕ) : ℝ) = (n : ℤ) := by
  unfold rnd
  rw [Int.floor_eq_iff]
  constructor <;> push_cast <;> linarith

lemma clampIdx_of_lt {len n : ℕ} (h : n < len) : clampIdx len ((n : ℕ) : ℤ) = n := by
  unfold clampIdx
  omega

lemma offsetDx_zero (angle : ℝ) : offsetDx 0 angle = 0 := by
  unfold offsetDx
  ring

lemma offsetDy_zero (angle : ℝ) : offsetDy 0 angle = 0 := by
  unfold offsetDy
  ring

/-- C3, counterexample: fast_glcm performs no parameter validation: with
distance = 0 (which the claim says must fail with InvalidParameter before
any computation), the call runs to completion and returns a full tensor,
here with value 9 in slice (3, 3) at pixel (0, 0) of the constant 4 x 4
image. -/
theorem c3_counterexample : fastGlcm img4 P0 3 3 0 0 = 9 := by
  have hpix4 : ∀ y x, img4.pix y x = 100 := fun _ _ => rfl
  have hq : quantize P0.vmin P0.vmax P0.levels 100 = ((3 : ℕ) : ℤ) := quantize_val_100
  rw [fastGlcm_of_const hpix4 hq]
  norm_num [P0]

/-- C3, amended: the source of fast_glcm contains no parameter validation
and raises no InvalidParameter or ShapeMismatch error: calls with invalid
parameters such as distance = 0 proceed with the computation; at
distance = 0 the shifted level map gl2 coincides with gl1 at every
in-image pixel, and the tensor is produced as usual. -/
theorem c3_no_validation (img : Img) (P : Params) (hd : P.distance = 0)
    (y x : ℕ) (hy : y < img.h) (hx : x < img.w) :
    gl2 img P y x = gl1 img P y x := by
  unfold gl2
  rw [hd, offsetDx_zero, offsetDy_zero, add_zero, add_zero, rnd_natCast,
    rnd_natCast, clampIdx_of_lt hy, clampIdx_of_lt hx]

/-- C3, witness: the amended theorem applied to the constant 4 x 4 image
with the invalid parameter distance = 0 at pixel (0, 0). -/
theorem c3_no_validation_witness : gl2 img4 P0 0 0 = gl1 img4 P0 0 0 :=
  c3_no_validation img4 P0 rfl 0 0 (by norm_num [img4]) (by norm_num [img4])

/-- C4: in the concrete scenario of the specification (4 x 4 image with
all pixels 100, vmin = 0, vmax = 255, levels = 8, kernel_size = 3,
distance = 1, angle = 0) every pixel quantizes to level 3, the tensor
slice (3, 3) is 9 at every pixel, all other slices are 0 everywhere,
contrast is 0, homogeneity is 9 and mean is 27 / 64 = 0.421875
everywhere. -/
theorem c4_concrete_scenario (y x : ℕ) (hy : y < 4) (hx : x < 4) :
    gl1 img4 P4 y x = 3 ∧
    fastGlcm img4 P4 3 3 y x = 9 ∧
    (∀ i j : ℕ, i < 8 → j < 8 → ¬(i = 3 ∧ j = 3) → fastGlcm img4 P4 i j y x = 0) ∧
    contrastStat img4 P4 y x = 0 ∧
    homogeneityStat img4 P4 y x = 9 ∧
    meanStat img4 P4 y x = 27 / 64 := by
  have hpix4 : ∀ y x, img4.pix y x = 100 := fun _ _ => rfl
  have hq : quantize P4.vmin P4.vmax P4.levels 100 = ((3 : ℕ) : ℤ) := quantize_val_100
  have hL : P4.levels = 8 := rfl
  have hval : ((min 255 (P4.ks ^ 2) : ℕ) : ℚ) = 9 := by norm_num [P4]
  refine ⟨?_, ?_, ?_, ?_, ?_, ?_⟩
  · rw [gl1_of_const hpix4 hq]
    norm_num
  · rw [fastGlcm_of_const hpix4 hq]
    norm_num [P4]
  · intro i j _ _ hne
    rw [fastGlcm_of_const hpix4 hq, if_neg hne]
  · unfold contrastStat
    rw [Finset.sum_congr rfl (fun p _ => by rw [fastGlcm_of_const hpix4 hq p.1 p.2])]
    simp only [ite_mul, zero_mul]
    rw [hL, sum_ite_pair (by norm_num) (by norm_num)
      (fun p => ((min 255 (P4.ks ^ 2) : ℕ) : ℚ) * ((p.1 : ℚ) - (p.2 : ℚ)) ^ 2)]
    norm_num
  · unfold homogeneityStat
    rw [Finset.sum_congr rfl (fun p _ => by rw [fastGlcm_of_const hpix4 hq p.1 p.2])]
    simp only [div_eq_mul_inv, ite_mul, zero_mul]
    rw [hL, sum_ite_pair (by norm_num) (by norm_num)
      (fun p => ((min 255 (P4.ks ^ 2) : ℕ) : ℚ) * (1 + ((p.1 : ℚ) - (p.2 : ℚ)) ^ 2)⁻¹)]
    norm_num [hval]
  · unfold meanStat
    rw [Finset.sum_congr rfl (fun p _ => by rw [fastGlcm_of_const hpix4 hq p.1 p.2])]
    simp only [ite_mul, zero_mul]
    rw [← Finset.sum_div, hL, sum_ite_pair (by norm_num) (by norm_num)
      (fun p => ((min 255 (P4.ks ^ 2) : ℕ) : ℚ) * (p.1 : ℚ))]
    rw [hval]
    norm_num

/-- C4, witness: the concrete scenario theorem applied at pixel (0, 0). -/
theorem c4_concrete_scenario_witness :
    gl1 img4 P4 0 0 = 3 ∧
    fastGlcm img4 P4 3 3 0 0 = 9 ∧
    (∀ i j : ℕ, i < 8 → j < 8 → ¬(i = 3 ∧ j = 3) → fastGlcm img4 P4 i j 0 0 = 0) ∧
    contrastStat img4 P4 0 0 = 0 ∧
    homogeneityStat img4 P4 0 0 = 9 ∧
    meanStat img4 P4 0 0 = 27 / 64 :=
  c4_concrete_scenario 0 0 (by norm_num) (by norm_num)

/-- The per-pixel tensor sum of the concrete scenario: the whole window
mass sits in slice (3, 3), so the sum is 9. -/
lemma tensorSum_img4 : tensorSum img4 P4 0 0 = 9 := by
  have hpix4 : ∀ y x, img4.pix y x = 100 := fun _ _ => rfl
  have hq : quantize P4.vmin P4.vmax P4.levels 100 = ((3 : ℕ) : ℤ) := quantize_val_100
  have hL : P4.levels = 8 := rfl
  unfold tensorSum
  rw [Finset.sum_congr rfl (fun p _ => by rw [fastGlcm_of_const hpix4 hq p.1 p.2])]
  rw [hL, sum_ite_pair (by norm_num) (by norm_num)
    (fun _ => ((min 255 (P4.ks ^ 2) : ℕ) : ℚ))]
  norm_num [P4]

/-- C5: the entropy statistic is, per pixel, the sum over all level pairs
of -p * ln p with p = tensor entry / per-pixel tensor sum + 1 / ks ** 2
(the fixed additive smoothing constant); moreover the smoothed p values
sum to 1 + levels ** 2 / ks ** 2, which differs from 1, so the formula is
not a normalized Shannon entropy. -/
theorem c5_entropy_formula (img : Img) (P : Params) (y x : ℕ)
    (hS : tensorSum img P y x ≠ 0) (hl : 1 ≤ P.levels) (hk : 1 ≤ P.ks) :
    (entropyStat img P y x =
      ∑ p ∈ Finset.range P.levels ×ˢ Finset.range P.levels,
        -(((fastGlcm img P p.1 p.2 y x : ℚ) : ℝ) / ((tensorSum img P y x : ℚ) : ℝ)
            + 1 / ((P.ks : ℝ)) ^ 2) *
          Real.log (((fastGlcm img P p.1 p.2 y x : ℚ) : ℝ)
              / ((tensorSum img P y x : ℚ) : ℝ) + 1 / ((P.ks : ℝ)) ^ 2)) ∧
    (∑ p ∈ Finset.range P.levels ×ˢ Finset.range P.levels,
        pnorm img P p.1 p.2 y x)
      = 1 + ((P.levels : ℝ)) ^ 2 / ((P.ks : ℝ)) ^ 2 ∧
    (∑ p ∈ Finset.range P.levels ×ˢ Finset.range P.levels,
        pnorm img P p.1 p.2 y x) ≠ 1 := by
  have hSR : ((tensorSum img P y x : ℚ) : ℝ) ≠ 0 := by
    exact_mod_cast hS
  have hkR : (0 : ℝ) < ((P.ks : ℝ)) ^ 2 := by
    have : (0 : ℝ) < (P.ks : ℝ) := by exact_mod_cast (by omega : 0 < P.ks)
    positivity
  have hsum : (∑ p ∈ Finset.range P.levels ×ˢ Finset.range P.levels,
      pnorm img P p.1 p.2 y x)
      = 1 + ((P.levels : ℝ)) ^ 2 / ((P.ks : ℝ)) ^ 2 := by
    unfold pnorm
    rw [Finset.sum_add_distrib, ← Finset.sum_div]
    have hcast : ∑ p ∈ Finset.range P.levels ×ˢ Finset.range P.levels,
        ((fastGlcm img P p.1 p.2 y x : ℚ) : ℝ) = ((tensorSum img P y x : ℚ) : ℝ) := by
      unfold tensorSum
      push_cast
      rfl
    rw [hcast, div_self hSR, Finset.sum_const, Finset.card_product, Finset.card_range,
      nsmul_eq_mul]
    push_cast
    ring
  have hLpos : (0 : ℝ) < ((P.levels : ℝ)) ^ 2 := by
    have : (0 : ℝ) < (P.levels : ℝ) := by exact_mod_cast (by omega : 0 < P.levels)
    positivity
  refine ⟨rfl, hsum, ?_⟩
  rw [hsum]
  have hpos : (0 : ℝ) < ((P.levels : ℝ)) ^ 2 / ((P.ks : ℝ)) ^ 2 := div_pos hLpos hkR
  intro heq
  linarith

/-- C5, witness: the entropy formula theorem applied to the constant
4 x 4 image of the concrete scenario, where the per-pixel tensor sum is
9 and hence nonzero. -/
theorem c5_entropy_formula_witness :
    (entropyStat img4 P4 0 0 =
      ∑ p ∈ Finset.range P4.levels ×ˢ Finset.range P4.levels,
        -(((fastGlcm img4 P4 p.1 p.2 0 0 : ℚ) : ℝ) / ((tensorSum img4 P4 0 0 : ℚ) : ℝ)
            + 1 / ((P4.ks : ℝ)) ^ 2) *
          Real.log (((fastGlcm img4 P4 p.1 p.2 0 0 : ℚ) : ℝ)
              / ((tensorSum img4 P4 0 0 : ℚ) : ℝ) + 1 / ((P4.ks : ℝ)) ^ 2)) ∧
    (∑ p ∈ Finset.range P4.levels ×ˢ Finset.range P4.levels,
        pnorm img4 P4 p.1 p.2 0 0)
      = 1 + ((P4.levels : ℝ)) ^ 2 / ((P4.ks : ℝ)) ^ 2 ∧
    (∑ p ∈ Finset.range P4.levels ×ˢ Finset.range P4.levels,
        pnorm img4 P4 p.1 p.2 0 0) ≠ 1 :=
  c5_entropy_formula img4 P4 0 0
    (by rw [tensorSum_img4]; norm_num)
    (by norm_num [P4]) (by norm_num [P4])

/-- C6: the max statistic is the per-pixel maximum of the tensor over all
level pairs, it is never negative and never exceeds kernel_size
squared. -/
theorem c6_max_bounds (img : Img) (P : Params) (hl : 1 ≤ P.levels) (y x : ℕ) :
    (∀ i j : ℕ, i < P.levels → j < P.levels →
      fastGlcm img P i j y x ≤ maxStat img P y x) ∧
    (∃ i j : ℕ, i < P.levels ∧ j < P.levels ∧
      maxStat img P y x = fastGlcm img P i j y x) ∧
    0 ≤ maxStat img P y x ∧
    maxStat img P y x ≤ ((P.ks : ℚ)) ^ 2 := by
  refine ⟨?_, ?_, ?_, ?_⟩
  · intro i j hi hj
    unfold maxStat fastGlcm
    exact Nat.cast_le.mpr (Finset.le_sup (f := fun p : ℕ × ℕ =>
      min 255 (windowCount img P p.1 p.2 y x)) (b := (i, j))
      (Finset.mem_product.mpr ⟨Finset.mem_range.mpr hi, Finset.mem_range.mpr hj⟩))
  · have hne : (Finset.range P.levels ×ˢ Finset.range P.levels).Nonempty :=
      Finset.Nonempty.product (Finset.nonempty_range_iff.mpr (by omega))
        (Finset.nonempty_range_iff.mpr (by omega))
    obtain ⟨b, hb, heq⟩ := Finset.exists_mem_eq_sup
      (Finset.range P.levels ×ˢ Finset.range P.levels) hne
      (fun p : ℕ × ℕ => min 255 (windowCount img P p.1 p.2 y x))
    rcases Finset.mem_product.mp hb with ⟨hb1, hb2⟩
    refine ⟨b.1, b.2, Finset.mem_range.mp hb1, Finset.mem_range.mp hb2, ?_⟩
    unfold maxStat fastGlcm
    rw [heq]
  · unfold maxStat
    exact Nat.cast_nonneg _
  · unfold maxStat
    have hle : (Finset.range P.levels ×ˢ Finset.range P.levels).sup
        (fun p : ℕ × ℕ => min 255 (windowCount img P p.1 p.2 y x)) ≤ P.ks ^ 2 :=
      Finset.sup_le (fun p _ =>
        le_trans (min_le_right _ _) (windowCount_le_sq img P p.1 p.2 y x))
    calc ((((Finset.range P.levels ×ˢ Finset.range P.levels).sup
          (fun p : ℕ × ℕ => min 255 (windowCount img P p.1 p.2 y x)) : ℕ)) : ℚ)
        ≤ ((P.ks ^ 2 : ℕ) : ℚ) := Nat.cast_le.mpr hle
      _ = ((P.ks : ℚ)) ^ 2 := by push_cast; ring

/-- C6, witness: the max statistic bounds applied to the constant 4 x 4
image with the parameters of the concrete scenario at pixel (0, 0). -/
theorem c6_max_bounds_witness :
    (∀ i j : ℕ, i < P4.levels → j < P4.levels →
      fastGlcm img4 P4 i j 0 0 ≤ maxStat img4 P4 0 0) ∧
    (∃ i j : ℕ, i < P4.levels ∧ j < P4.levels ∧
      maxStat img4 P4 0 0 = fastGlcm img4 P4 i j 0 0) ∧
    0 ≤ maxStat img4 P4 0 0 ∧
    maxStat img4 P4 0 0 ≤ ((P4.ks : ℚ)) ^ 2 :=
  c6_max_bounds img4 P4 (by norm_num [P4]) 0 0

/-- C8: fast_glcm is deterministic and free of hidden state: two calls on
images with equal dimensions and pixelwise equal contents, with the same
parameters, return identical tensors. -/
theorem c8_deterministic (a b : Img) (P : Params) (hh : a.h = b.h)
    (hw : a.w = b.w) (hp : ∀ y x, a.pix y x = b.pix y x) (i j y x : ℕ) :
    fastGlcm a P i j y x = fastGlcm b P i j y x := by
  obtain ⟨ah, aw, ap⟩ := a
  obtain ⟨bh, bw, bp⟩ := b
  have h1 : ah = bh := hh
  have h2 : aw = bw := hw
  have h3 : ap = bp := funext fun y => funext fun x => hp y x
  subst h1
  subst h2
  subst h3
  rfl

/-- A second spelling of the constant image with value 7, extensionally
equal to imgA but written differently. -/
def imgA : Img := ⟨1, 1, fun _ _ => 7⟩

/-- See imgA: the same image with the pixel function written with a
vacuous dependence on the coordinates. -/
def imgB : Img := ⟨1, 1, fun y x => 7 + 0 * ((y : ℤ) + (x : ℤ))⟩

/-- C8, witness: determinism applied to two extensionally equal but
syntactically different constant images. -/
theorem c8_deterministic_witness :
    fastGlcm imgA P4 0 0 0 0 = fastGlcm imgB P4 0 0 0 0 :=
  c8_deterministic imgA imgB P4 rfl rfl
    (fun y x => by simp [imgA, imgB]) 0 0 0 0

/-- C9: the GLCM is accumulated in a uint8 array, so a windowed count
saturates at 255: for every kernel_size of at least 16, on the constant
1 x 1 image the true windowed count at slice (3, 3) is kernel_size
squared, but the tensor entry returned (after the float cast) is 255,
which differs from kernel_size squared. -/
theorem c9_uint8_saturation (ks : ℕ) (hks : 16 ≤ ks) :
    windowCount imgC ⟨0, 255, 8, ks, 1, 0⟩ 3 3 0 0 = ks ^ 2 ∧
    fastGlcm imgC ⟨0, 255, 8, ks, 1, 0⟩ 3 3 0 0 = 255 ∧
    (255 : ℚ) ≠ ((ks : ℚ)) ^ 2 := by
  have hpixC : ∀ y x, imgC.pix y x = 100 := fun _ _ => rfl
  have hq : quantize (Params.mk 0 255 8 ks 1 0).vmin (Params.mk 0 255 8 ks 1 0).vmax
      (Params.mk 0 255 8 ks 1 0).levels 100 = ((3 : ℕ) : ℤ) := quantize_val_100
  have hsq : 256 ≤ ks ^ 2 := by nlinarith
  refine ⟨?_, ?_, ?_⟩
  · rw [windowCount_of_const hpixC hq]
    simp
  · unfold fastGlcm
    rw [windowCount_of_const hpixC hq, if_pos ⟨rfl, rfl⟩]
    have hmin : min 255 ((Params.mk (0 : ℤ) 255 8 ks 1 0).ks ^ 2) = 255 := by
      show min 255 (ks ^ 2) = 255
      omega
    rw [hmin]
    norm_num
  · intro h
    have hcast : (256 : ℚ) ≤ ((ks : ℚ)) ^ 2 := by
      have : ((256 : ℕ) : ℚ) ≤ ((ks ^ 2 : ℕ) : ℚ) := Nat.cast_le.mpr hsq
      push_cast at this
      linarith
    linarith

/-- C9, witness: the saturation theorem at kernel_size = 16, where the
true windowed count is 256 but the stored tensor entry is 255. -/
theorem c9_uint8_saturation_witness :
    windowCount imgC ⟨0, 255, 8, 16, 1, 0⟩ 3 3 0 0 = 16 ^ 2 ∧
    fastGlcm imgC ⟨0, 255, 8, 16, 1, 0⟩ 3 3 0 0 = 255 ∧
    (255 : ℚ) ≠ ((16 : ℕ) : ℚ) ^ 2 :=
  c9_uint8_saturation 16 (by norm_num)

/-!
Evaluation lemmas for the float model of the entropy reducer.
-/

lemma wbDiv_coe_zero (a : ℝ) :
    wbDiv ((a : ℝ) : WithBot ℝ) (((0 : ℝ)) : WithBot ℝ) = ⊥ := by
  unfold wbDiv
  rw [WithBot.recBotCoe_coe, WithBot.recBotCoe_coe, if_pos rfl]

lemma wbNeg_bot : wbNeg (⊥ : WithBot ℝ) = ⊥ := by
  unfold wbNeg
  rw [WithBot.recBotCoe_bot]

lemma wbLog_bot : wbLog (⊥ : WithBot ℝ) = ⊥ := by
  unfold wbLog
  rw [WithBot.recBotCoe_bot]

lemma wbMul_bot_left (b : WithBot ℝ) : wbMul (⊥ : WithBot ℝ) b = ⊥ := by
  unfold wbMul
  rw [WithBot.recBotCoe_bot]

lemma sum_const_bot {ι : Type} [DecidableEq ι] {s : Finset ι} (hs : s.Nonempty) :
    (∑ _i ∈ s, (⊥ : WithBot ℝ)) = ⊥ := by
  obtain ⟨a, ha⟩ := hs
  rw [← Finset.add_sum_erase s _ ha, WithBot.bot_add]

/-- C10: the division in entropy by the per-pixel tensor sum is
unguarded: on the 1 x 1 image with pixel value 50 and vmin = 100,
vmax = 200, levels = 8, kernel_size = 5, every quantized level falls
outside [0, levels - 1], the per-pixel tensor sum is 0, the division
0 / 0 produces NaN, and the entropy output at pixel (0, 0) is non-finite
(⊥ in the float model) rather than an error. -/
theorem c10_entropy_nan :
    imgLow.pix 0 0 < PLow.vmin ∧
    tensorSum imgLow PLow 0 0 = 0 ∧
    entropyFloat imgLow PLow 0 0 = ⊥ := by
  have hneg := gl1_imgLow_neg PLow rfl rfl rfl
  have hS : tensorSum imgLow PLow 0 0 = 0 := tensorSum_eq_zero_of_gl1_neg hneg 0 0
  refine ⟨by norm_num [imgLow, PLow], hS, ?_⟩
  have hp : ∀ i j : ℕ, pnormFloat imgLow PLow i j 0 0 = ⊥ := by
    intro i j
    unfold pnormFloat
    rw [fastGlcm_eq_zero_of_gl1_neg hneg i j 0 0, hS]
    simp only [Rat.cast_zero]
    rw [wbDiv_coe_zero, WithBot.bot_add]
  unfold entropyFloat
  rw [Finset.sum_congr rfl (fun p _ => by
    rw [hp p.1 p.2, wbNeg_bot, wbMul_bot_left])]
  exact sum_const_bot ⟨(0, 0), Finset.mem_product.mpr
    ⟨Finset.mem_range.mpr (by norm_num [PLow]),
      Finset.mem_range.mpr (by norm_num [PLow])⟩⟩

end FastGLCM
